import Mathlib

/-!
Shallow embedding of the LMSR prediction-market engine from src/lmsr.rs and
src/market.rs, together with proofs about it.

Modelling conventions:
* The outcome type `T` (an enum with `T::COUNT = n` variants, indexed by
  `outcome_index` via iteration order) is modelled as `Fin n`; `outcome_index`
  is then the identity on the index.
* Rust `u64` share counts become `ℕ`; `f64` amounts (liquidity, volume, costs,
  prices) become `ℝ`, the ideal arithmetic the spec describes (spec statements
  are "within floating-point tolerance").
* `Vec<u64>` becomes `List ℕ`.  Indexing `self.shares[i]` is modelled by
  `List.getD i 0`; in every reachable state the list has length `n`, so the
  default is never used there, and out-of-bounds access (a Rust panic,
  classified by the spec as a fatal precondition violation) is outside the
  theorems, which carry the length hypothesis.
* Methods taking `&mut self` and returning `Result<A, LmsrError>` become
  functions `LmsrMarket n → ... → Except LmsrError A × LmsrMarket n`, the
  second component being the state after the call (unchanged on an early
  error return, exactly as in the Rust source).  Methods taking `&self`
  (`price`, `payout_per_share`, `cost`) cannot mutate and are plain functions
  into `Except LmsrError A`.
-/

namespace Lmsr

/-- Error taxonomy, from `enum LmsrError` in src/lmsr.rs. -/
inductive LmsrError where
  | InsufficientShares
  | Resolved
  | NegativeMarketCapitalization
  deriving DecidableEq

/-- Live market state, from `struct LmsrMarket<T>` in src/lmsr.rs;
`n` is `T::COUNT`. -/
structure LmsrMarket (n : ℕ) where
  shares : List ℕ
  liquidity : ℝ
  resolved : Option (Fin n)
  market_volume : ℝ

/-- Snapshot record, from `struct LmsrMarketDTO<T>` in src/lmsr.rs. -/
structure LmsrMarketDTO (n : ℕ) where
  shares : List ℕ
  liquidity : ℝ
  resolved : Option (Fin n)
  market_volume : ℝ

/-- The conversion `From<LmsrMarketDTO<T>> for LmsrMarket<T>`
(src/lmsr.rs lines 34 to 46): a plain field-by-field copy. -/
def LmsrMarket.ofDTO {n : ℕ} (value : LmsrMarketDTO n) : LmsrMarket n :=
  ⟨value.shares, value.liquidity, value.resolved, value.market_volume⟩

/-- The conversion `From<LmsrMarket<T>> for LmsrMarketDTO<T>`
(src/lmsr.rs lines 20 to 32), used by `serialize`. -/
def LmsrMarket.serialize {n : ℕ} (value : LmsrMarket n) : LmsrMarketDTO n :=
  ⟨value.shares, value.liquidity, value.resolved, value.market_volume⟩

/-- `LmsrMarket::new` (src/lmsr.rs lines 58 to 65): zeroed shares of length
`T::COUNT`, unresolved, zero volume. -/
def LmsrMarket.new (n : ℕ) (liquidity : ℝ) : LmsrMarket n :=
  ⟨List.replicate n 0, liquidity, none, 0⟩

/-- The sum `Σ exp(q / b)` over a share list, the inner computation of both
`cost` and `price` in src/lmsr.rs. -/
noncomputable def expSum (b : ℝ) (qs : List ℕ) : ℝ :=
  (qs.map (fun q : ℕ => Real.exp ((q : ℝ) / b))).sum

/-- `LmsrMarket::cost` (src/lmsr.rs lines 73 to 80):
`liquidity * ln (Σ exp(q / liquidity))`. -/
noncomputable def LmsrMarket.cost {n : ℕ} (m : LmsrMarket n) (qs : List ℕ) : ℝ :=
  m.liquidity * Real.log (expSum m.liquidity qs)

/-- The value computed by `price` (src/lmsr.rs lines 94 to 106):
`exp(shares[i] / liquidity) / Σ exp(shares[j] / liquidity)`. -/
noncomputable def LmsrMarket.priceVal {n : ℕ} (m : LmsrMarket n) (i : Fin n) : ℝ :=
  Real.exp ((m.shares.getD i 0 : ℝ) / m.liquidity) / expSum m.liquidity m.shares

/-- `price` from the `Market` impl (src/lmsr.rs lines 94 to 106): always
returns `Ok` of the softmax value; it takes `&self` and cannot mutate. -/
noncomputable def LmsrMarket.price {n : ℕ} (m : LmsrMarket n) (i : Fin n) :
    Except LmsrError ℝ :=
  Except.ok (m.priceVal i)

/-- `buy` from the `Market` impl (src/lmsr.rs lines 108 to 122). -/
noncomputable def LmsrMarket.buy {n : ℕ} (m : LmsrMarket n) (i : Fin n) (amount : ℕ) :
    Except LmsrError ℝ × LmsrMarket n :=
  if m.resolved.isSome then (Except.error LmsrError.Resolved, m)
  else
    (Except.ok (m.cost (m.shares.set i (m.shares.getD i 0 + amount)) - m.cost m.shares),
      { m with
          shares := m.shares.set i (m.shares.getD i 0 + amount),
          market_volume := m.market_volume +
            (m.cost (m.shares.set i (m.shares.getD i 0 + amount)) - m.cost m.shares) })

/-- `sell` from the `Market` impl (src/lmsr.rs lines 124 to 146). -/
noncomputable def LmsrMarket.sell {n : ℕ} (m : LmsrMarket n) (i : Fin n) (amount : ℕ) :
    Except LmsrError ℝ × LmsrMarket n :=
  if m.resolved.isSome then (Except.error LmsrError.Resolved, m)
  else if m.shares.getD i 0 < amount then (Except.error LmsrError.InsufficientShares, m)
  else if m.market_volume -
      (m.cost m.shares - m.cost (m.shares.set i (m.shares.getD i 0 - amount))) < 0 then
    (Except.error LmsrError.NegativeMarketCapitalization, m)
  else
    (Except.ok (m.cost m.shares - m.cost (m.shares.set i (m.shares.getD i 0 - amount))),
      { m with
          shares := m.shares.set i (m.shares.getD i 0 - amount),
          market_volume := m.market_volume -
            (m.cost m.shares - m.cost (m.shares.set i (m.shares.getD i 0 - amount))) })

/-- `resolve` from the `Market` impl (src/lmsr.rs lines 148 to 151):
unconditionally sets `resolved` and returns `Ok(())`. -/
def LmsrMarket.resolve {n : ℕ} (m : LmsrMarket n) (winning_outcome : Fin n) :
    Except LmsrError Unit × LmsrMarket n :=
  (Except.ok (), { m with resolved := some winning_outcome })

/-- `payout_per_share` from the `Market` impl (src/lmsr.rs lines 153 to 161). -/
noncomputable def LmsrMarket.payout_per_share {n : ℕ} (m : LmsrMarket n) (i : Fin n) :
    Except LmsrError ℝ :=
  if m.shares.getD i 0 = 0 then Except.error LmsrError.InsufficientShares
  else Except.ok (m.market_volume / (m.shares.getD i 0 : ℝ))

/-- States reachable from a freshly constructed market with liquidity `b` by
any sequence of the state-passing operations (`price` and `payout_per_share`
take `&self` and cannot change the state). -/
inductive Reachable (n : ℕ) (b : ℝ) : LmsrMarket n → Prop where
  | new : Reachable n b (LmsrMarket.new n b)
  | buy {m : LmsrMarket n} (i : Fin n) (amount : ℕ) :
      Reachable n b m → Reachable n b (m.buy i amount).2
  | sell {m : LmsrMarket n} (i : Fin n) (amount : ℕ) :
      Reachable n b m → Reachable n b (m.sell i amount).2
  | resolve {m : LmsrMarket n} (i : Fin n) :
      Reachable n b m → Reachable n b (m.resolve i).2

/-! Helper lemmas about the operations. -/

/-- Neither branch of `buy` touches the `resolved` field. -/
theorem LmsrMarket.buy_resolved_eq {n : ℕ} (m : LmsrMarket n) (i : Fin n) (a : ℕ) :
    ((m.buy i a).2).resolved = m.resolved := by
  unfold LmsrMarket.buy
  split <;> rfl

/-- No branch of `sell` touches the `resolved` field. -/
theorem LmsrMarket.sell_resolved_eq {n : ℕ} (m : LmsrMarket n) (i : Fin n) (a : ℕ) :
    ((m.sell i a).2).resolved = m.resolved := by
  unfold LmsrMarket.sell
  split
  · rfl
  · split
    · rfl
    · split <;> rfl

/-- Setting an index to the value it already holds is the identity. -/
theorem set_getD_self {α : Type} (l : List α) (i : ℕ) (d : α) (h : i < l.length) :
    l.set i (l.getD i d) = l := by
  apply List.ext_getElem?
  intro j
  rcases eq_or_ne i j with rfl | hij
  · rw [List.getElem?_set_self h, List.getD_eq_getElem?_getD,
      List.getElem?_eq_getElem h]
    rfl
  · exact List.getElem?_set_ne hij

/-- Reading back a freshly set in-bounds index. -/
theorem getD_set_self {α : Type} (l : List α) (i : ℕ) (v d : α)
    (h : i < l.length) : (l.set i v).getD i d = v := by
  rw [List.getD_eq_getElem?_getD, List.getElem?_set_self h]
  rfl

/-- Setting one index does not change reads of another. -/
theorem getD_set_ne {α : Type} (l : List α) {i j : ℕ} (hij : i ≠ j)
    (v d : α) : (l.set i v).getD j d = l.getD j d := by
  rw [List.getD_eq_getElem?_getD, List.getElem?_set_ne hij,
    ← List.getD_eq_getElem?_getD]

/-- An exponential sum over a nonempty share list is strictly positive. -/
theorem expSum_pos (b : ℝ) (qs : List ℕ) (h : qs ≠ []) : 0 < expSum b qs := by
  refine List.sum_pos _ ?_ (fun e => h (List.map_eq_nil_iff.mp e))
  intro x hx
  obtain ⟨q, -, rfl⟩ := List.mem_map.1 hx
  exact Real.exp_pos _

/-- The exponential sum as a finite sum over positions. -/
theorem expSum_eq_sum_fin (b : ℝ) (qs : List ℕ) (n : ℕ) (hlen : qs.length = n) :
    expSum b qs = ∑ i : Fin n, Real.exp ((qs.getD i 0 : ℝ) / b) := by
  subst hlen
  rw [expSum, ← Fin.sum_univ_get']
  refine Finset.sum_congr rfl fun i _ => ?_
  rw [List.getD_eq_getElem?_getD, List.getElem?_eq_getElem i.isLt]
  rfl

/-- Raising one entry of the share list can only increase the exponential
sum, provided the liquidity is positive. -/
theorem expSum_le_expSum_set (b : ℝ) (hb : 0 < b) (qs : List ℕ) (i : ℕ) (v : ℕ)
    (hv : qs.getD i 0 ≤ v) : expSum b qs ≤ expSum b (qs.set i v) := by
  rcases lt_or_le i qs.length with hi | hi
  · rw [expSum_eq_sum_fin b qs qs.length rfl,
      expSum_eq_sum_fin b (qs.set i v) qs.length (qs.length_set i v)]
    refine Finset.sum_le_sum fun k _ => ?_
    rcases eq_or_ne i (k : ℕ) with hk | hk
    · rw [← hk, getD_set_self qs i v 0 hi]
      refine Real.exp_le_exp.2 (div_le_div_of_nonneg_right ?_ hb.le)
      exact_mod_cast hv
    · rw [getD_set_ne qs hk v 0]
  · rw [List.set_eq_of_length_le hi]

/-- Monotonicity of the cost function under raising one share entry. -/
theorem cost_le_cost_set {n : ℕ} (m : LmsrMarket n) (hb : 0 < m.liquidity)
    (qs : List ℕ) (i : ℕ) (v : ℕ) (hv : qs.getD i 0 ≤ v) :
    m.cost qs ≤ m.cost (qs.set i v) := by
  rcases eq_or_ne qs [] with rfl | hne
  · simp [LmsrMarket.cost]
  · unfold LmsrMarket.cost
    refine mul_le_mul_of_nonneg_left ?_ hb.le
    exact Real.log_le_log (expSum_pos _ _ hne) (expSum_le_expSum_set _ hb _ _ _ hv)

/-- The cost difference charged by a buy is non-negative. -/
theorem buy_cost_diff_nonneg {n : ℕ} (m : LmsrMarket n) (hb : 0 < m.liquidity)
    (i : ℕ) (a : ℕ) :
    0 ≤ m.cost (m.shares.set i (m.shares.getD i 0 + a)) - m.cost m.shares :=
  sub_nonneg.2 (cost_le_cost_set m hb _ _ _ (Nat.le_add_right _ _))

/-- A buy leaves the liquidity unchanged. -/
theorem LmsrMarket.buy_liquidity_eq {n : ℕ} (m : LmsrMarket n) (i : Fin n) (a : ℕ) :
    ((m.buy i a).2).liquidity = m.liquidity := by
  unfold LmsrMarket.buy
  split <;> rfl

/-- A sell leaves the liquidity unchanged. -/
theorem LmsrMarket.sell_liquidity_eq {n : ℕ} (m : LmsrMarket n) (i : Fin n) (a : ℕ) :
    ((m.sell i a).2).liquidity = m.liquidity := by
  unfold LmsrMarket.sell
  split
  · rfl
  · split
    · rfl
    · split <;> rfl

/-- A buy preserves the length of the share list. -/
theorem LmsrMarket.buy_shares_length {n : ℕ} (m : LmsrMarket n) (i : Fin n) (a : ℕ) :
    ((m.buy i a).2).shares.length = m.shares.length := by
  unfold LmsrMarket.buy
  split
  · rfl
  · exact m.shares.length_set _ _

/-- A sell preserves the length of the share list. -/
theorem LmsrMarket.sell_shares_length {n : ℕ} (m : LmsrMarket n) (i : Fin n) (a : ℕ) :
    ((m.sell i a).2).shares.length = m.shares.length := by
  unfold LmsrMarket.sell
  split
  · rfl
  · split
    · rfl
    · split
      · rfl
      · exact m.shares.length_set _ _

/-- A buy keeps the market volume non-negative when the liquidity is
positive. -/
theorem LmsrMarket.buy_volume_nonneg {n : ℕ} (m : LmsrMarket n) (i : Fin n) (a : ℕ)
    (hb : 0 < m.liquidity) (hv : 0 ≤ m.market_volume) :
    0 ≤ ((m.buy i a).2).market_volume := by
  unfold LmsrMarket.buy
  split
  · exact hv
  · exact add_nonneg hv (buy_cost_diff_nonneg m hb _ _)

/-- A sell keeps the market volume non-negative: the guard in the source
rejects exactly the trades that would take it below zero. -/
theorem LmsrMarket.sell_volume_nonneg {n : ℕ} (m : LmsrMarket n) (i : Fin n) (a : ℕ)
    (hv : 0 ≤ m.market_volume) : 0 ≤ ((m.sell i a).2).market_volume := by
  unfold LmsrMarket.sell
  split
  · exact hv
  · split
    · exact hv
    · split
      · exact hv
      · exact le_of_not_lt (by assumption)

/-- Every reachable state keeps the liquidity chosen at construction. -/
theorem reachable_liquidity {n : ℕ} {b : ℝ} {m : LmsrMarket n}
    (h : Reachable n b m) : m.liquidity = b := by
  induction h with
  | new => rfl
  | buy i a _ ih => rw [LmsrMarket.buy_liquidity_eq]; exact ih
  | sell i a _ ih => rw [LmsrMarket.sell_liquidity_eq]; exact ih
  | resolve i _ ih => exact ih

/-- Every reachable state has a share list of length `n`. -/
theorem reachable_shares_length {n : ℕ} {b : ℝ} {m : LmsrMarket n}
    (h : Reachable n b m) : m.shares.length = n := by
  induction h with
  | new => exact List.length_replicate _ _
  | buy i a _ ih => rw [LmsrMarket.buy_shares_length]; exact ih
  | sell i a _ ih => rw [LmsrMarket.sell_shares_length]; exact ih
  | resolve i _ ih => exact ih

/-- On a resolved market, `buy` returns the `Resolved` error and leaves the
state untouched. -/
theorem LmsrMarket.buy_eq_resolved {n : ℕ} (m : LmsrMarket n) (i : Fin n) (a : ℕ)
    (h : m.resolved.isSome) :
    m.buy i a = (Except.error LmsrError.Resolved, m) := by
  unfold LmsrMarket.buy
  rw [if_pos h]

/-- On an unresolved market, `buy` commits the incremented shares, adds the
cost difference to the volume, and returns it. -/
theorem LmsrMarket.buy_eq_ok {n : ℕ} (m : LmsrMarket n) (i : Fin n) (a : ℕ)
    (h : m.resolved = none) :
    m.buy i a =
      (Except.ok (m.cost (m.shares.set i (m.shares.getD i 0 + a)) - m.cost m.shares),
        { m with
            shares := m.shares.set i (m.shares.getD i 0 + a),
            market_volume := m.market_volume +
              (m.cost (m.shares.set i (m.shares.getD i 0 + a)) - m.cost m.shares) }) := by
  unfold LmsrMarket.buy
  rw [if_neg (by rw [h]; exact Bool.false_ne_true)]

/-- On a resolved market, `sell` returns the `Resolved` error and leaves the
state untouched. -/
theorem LmsrMarket.sell_eq_resolved {n : ℕ} (m : LmsrMarket n) (i : Fin n) (a : ℕ)
    (h : m.resolved.isSome) :
    m.sell i a = (Except.error LmsrError.Resolved, m) := by
  unfold LmsrMarket.sell
  rw [if_pos h]

/-- Selling more than the held shares returns `InsufficientShares` and leaves
the state untouched. -/
theorem LmsrMarket.sell_eq_insufficient {n : ℕ} (m : LmsrMarket n) (i : Fin n) (a : ℕ)
    (h1 : m.resolved = none) (h2 : m.shares.getD i 0 < a) :
    m.sell i a = (Except.error LmsrError.InsufficientShares, m) := by
  unfold LmsrMarket.sell
  rw [if_neg (by rw [h1]; exact Bool.false_ne_true), if_pos h2]

/-- A sell whose proceeds would drive the volume negative returns
`NegativeMarketCapitalization` and leaves the state untouched. -/
theorem LmsrMarket.sell_eq_negcap {n : ℕ} (m : LmsrMarket n) (i : Fin n) (a : ℕ)
    (h1 : m.resolved = none) (h2 : ¬ m.shares.getD i 0 < a)
    (h3 : m.market_volume -
      (m.cost m.shares - m.cost (m.shares.set i (m.shares.getD i 0 - a))) < 0) :
    m.sell i a = (Except.error LmsrError.NegativeMarketCapitalization, m) := by
  unfold LmsrMarket.sell
  rw [if_neg (by rw [h1]; exact Bool.false_ne_true), if_neg h2, if_pos h3]

/-- A sell passing every check commits the decremented shares, subtracts the
proceeds from the volume, and returns them. -/
theorem LmsrMarket.sell_eq_ok {n : ℕ} (m : LmsrMarket n) (i : Fin n) (a : ℕ)
    (h1 : m.resolved = none) (h2 : ¬ m.shares.getD i 0 < a)
    (h3 : ¬ m.market_volume -
      (m.cost m.shares - m.cost (m.shares.set i (m.shares.getD i 0 - a))) < 0) :
    m.sell i a =
      (Except.ok (m.cost m.shares - m.cost (m.shares.set i (m.shares.getD i 0 - a))),
        { m with
            shares := m.shares.set i (m.shares.getD i 0 - a),
            market_volume := m.market_volume -
              (m.cost m.shares - m.cost (m.shares.set i (m.shares.getD i 0 - a))) }) := by
  unfold LmsrMarket.sell
  rw [if_neg (by rw [h1]; exact Bool.false_ne_true), if_neg h2, if_neg h3]

/-! Theorems for the claims. -/

/-- C3: `buy` fails with `Resolved` exactly on a resolved market; otherwise it
succeeds, increments `shares[i]` by `amount` leaving every other entry (and
the length, liquidity and resolution state) unchanged, returns the cost
difference `C(new) - C(old)`, which is non-negative for positive liquidity,
and adds exactly the returned value to `market_volume`. -/
theorem buy_spec {n : ℕ} (m : LmsrMarket n) (i : Fin n) (a : ℕ)
    (hb : 0 < m.liquidity) (hlen : m.shares.length = n) :
    (m.resolved.isSome → m.buy i a = (Except.error LmsrError.Resolved, m)) ∧
    (m.resolved = none →
      (m.buy i a).1 =
        Except.ok (m.cost (m.shares.set i (m.shares.getD i 0 + a)) - m.cost m.shares) ∧
      0 ≤ m.cost (m.shares.set i (m.shares.getD i 0 + a)) - m.cost m.shares ∧
      ((m.buy i a).2).shares.getD i 0 = m.shares.getD i 0 + a ∧
      (∀ j : Fin n, j ≠ i → ((m.buy i a).2).shares.getD j 0 = m.shares.getD j 0) ∧
      ((m.buy i a).2).market_volume =
        m.market_volume +
          (m.cost (m.shares.set i (m.shares.getD i 0 + a)) - m.cost m.shares) ∧
      ((m.buy i a).2).resolved = none ∧
      ((m.buy i a).2).liquidity = m.liquidity) := by
  constructor
  · exact fun h => m.buy_eq_resolved i a h
  · intro h
    rw [m.buy_eq_ok i a h]
    refine ⟨rfl, buy_cost_diff_nonneg m hb i a, ?_, ?_, rfl, h, rfl⟩
    · exact getD_set_self m.shares i _ 0 (by rw [hlen]; exact i.isLt)
    · intro j hj
      exact getD_set_ne m.shares (fun hc => hj (Fin.ext (hc.symm))) _ 0

/-- Witness for C3: buying one share of outcome 0 on a fresh binary market
raises that share count from 0 to 1 and leaves outcome 1 untouched. -/
theorem buy_spec_witness :
    (((LmsrMarket.new 2 (10 : ℝ)).buy 0 1).2).shares.getD 0 0 =
      (LmsrMarket.new 2 (10 : ℝ)).shares.getD 0 0 + 1 ∧
    (((LmsrMarket.new 2 (10 : ℝ)).buy 0 1).2).shares.getD 1 0 =
      (LmsrMarket.new 2 (10 : ℝ)).shares.getD 1 0 :=
  ⟨((buy_spec (LmsrMarket.new 2 (10 : ℝ)) 0 1 (by norm_num [LmsrMarket.new]) rfl).2
      rfl).2.2.1,
   ((buy_spec (LmsrMarket.new 2 (10 : ℝ)) 0 1 (by norm_num [LmsrMarket.new]) rfl).2
      rfl).2.2.2.1 1 (by decide)⟩

/-- C4: `sell` returns an error exactly when the market is resolved
(`Resolved`), the amount exceeds the held shares (`InsufficientShares`), or
the proceeds `C(old) - C(new)` would drive `market_volume` negative
(`NegativeMarketCapitalization`); every error leaves the state exactly as
before the call, and on success `shares[i]` is decremented by `amount`, the
proceeds are subtracted from `market_volume` and returned. -/
theorem sell_spec {n : ℕ} (m : LmsrMarket n) (i : Fin n) (a : ℕ) :
    ((∃ e, (m.sell i a).1 = Except.error e) ↔
      (m.resolved.isSome ∨ m.shares.getD i 0 < a ∨
        m.market_volume -
          (m.cost m.shares - m.cost (m.shares.set i (m.shares.getD i 0 - a))) < 0)) ∧
    (∀ e, (m.sell i a).1 = Except.error e → (m.sell i a).2 = m) ∧
    (m.resolved.isSome → m.sell i a = (Except.error LmsrError.Resolved, m)) ∧
    (m.resolved = none → m.shares.getD i 0 < a →
      m.sell i a = (Except.error LmsrError.InsufficientShares, m)) ∧
    (m.resolved = none → a ≤ m.shares.getD i 0 →
      m.market_volume -
        (m.cost m.shares - m.cost (m.shares.set i (m.shares.getD i 0 - a))) < 0 →
      m.sell i a = (Except.error LmsrError.NegativeMarketCapitalization, m)) ∧
    (m.resolved = none → a ≤ m.shares.getD i 0 →
      0 ≤ m.market_volume -
        (m.cost m.shares - m.cost (m.shares.set i (m.shares.getD i 0 - a))) →
      m.sell i a =
        (Except.ok (m.cost m.shares - m.cost (m.shares.set i (m.shares.getD i 0 - a))),
          { m with
              shares := m.shares.set i (m.shares.getD i 0 - a),
              market_volume := m.market_volume -
                (m.cost m.shares - m.cost (m.shares.set i (m.shares.getD i 0 - a))) })) := by
  by_cases h1 : m.resolved.isSome
  · rw [m.sell_eq_resolved i a h1]
    have hne : m.resolved ≠ none := Option.isSome_iff_ne_none.mp h1
    exact ⟨⟨fun _ => Or.inl h1, fun _ => ⟨_, rfl⟩⟩, fun e _ => rfl, fun _ => rfl,
      fun hn _ => absurd hn hne, fun hn _ _ => absurd hn hne,
      fun hn _ _ => absurd hn hne⟩
  · have hr : m.resolved = none := Option.not_isSome_iff_eq_none.mp h1
    by_cases h2 : m.shares.getD i 0 < a
    · rw [m.sell_eq_insufficient i a hr h2]
      exact ⟨⟨fun _ => Or.inr (Or.inl h2), fun _ => ⟨_, rfl⟩⟩, fun e _ => rfl,
        fun hs => absurd hs h1, fun _ _ => rfl,
        fun _ hle _ => absurd h2 (not_lt.2 hle), fun _ hle _ => absurd h2 (not_lt.2 hle)⟩
    · by_cases h3 : m.market_volume -
        (m.cost m.shares - m.cost (m.shares.set i (m.shares.getD i 0 - a))) < 0
      · rw [m.sell_eq_negcap i a hr h2 h3]
        exact ⟨⟨fun _ => Or.inr (Or.inr h3), fun _ => ⟨_, rfl⟩⟩, fun e _ => rfl,
          fun hs => absurd hs h1, fun _ hlt => absurd hlt h2,
          fun _ _ _ => rfl, fun _ _ hge => absurd h3 (not_lt.2 hge)⟩
      · rw [m.sell_eq_ok i a hr h2 h3]
        refine ⟨⟨fun he => ?_, fun ho => ?_⟩, fun e he => Except.noConfusion he,
          fun hs => absurd hs h1, fun _ hlt => absurd hlt h2,
          fun _ _ hlt => absurd hlt h3, fun _ _ _ => rfl⟩
        · obtain ⟨e, he⟩ := he
          exact Except.noConfusion he
        · rcases ho with ho | ho | ho
          · exact absurd ho h1
          · exact absurd ho h2
          · exact absurd ho h3

/-- Witness for C4: on a fresh binary market, selling one share of outcome 0
(of which none are held) fails with `InsufficientShares` and leaves the
market unchanged. -/
theorem sell_spec_witness :
    (LmsrMarket.new 2 (10 : ℝ)).sell 0 1 =
      (Except.error LmsrError.InsufficientShares, LmsrMarket.new 2 (10 : ℝ)) :=
  (sell_spec (LmsrMarket.new 2 (10 : ℝ)) 0 1).2.2.2.1 rfl (by decide)

/-- C7: starting from a freshly constructed market with positive liquidity
(and `market_volume = 0`), every sequence of operations leaves
`market_volume` non-negative. -/
theorem market_volume_nonneg_reachable {n : ℕ} {b : ℝ} {m : LmsrMarket n}
    (hb : 0 < b) (h : Reachable n b m) : 0 ≤ m.market_volume := by
  induction h with
  | new => exact le_refl 0
  | buy i a hr ih =>
      exact LmsrMarket.buy_volume_nonneg _ i a (by rw [reachable_liquidity hr]; exact hb) ih
  | sell i a _ ih => exact LmsrMarket.sell_volume_nonneg _ i a ih
  | resolve i _ ih => exact ih

/-- Witness for C7: after buying 3 shares of outcome 0 on a fresh binary
market with liquidity 10, the market volume is non-negative. -/
theorem market_volume_nonneg_reachable_witness :
    0 ≤ (((LmsrMarket.new 2 (10 : ℝ)).buy 0 3).2).market_volume :=
  market_volume_nonneg_reachable (by norm_num) (Reachable.buy 0 3 Reachable.new)

/-- C10: `resolve` always returns `Ok`, also on an already-resolved market,
and modifies only the `resolved` field, setting it to its argument; `shares`,
`liquidity` and `market_volume` are unchanged. -/
theorem resolve_always_ok_frame {n : ℕ} (m : LmsrMarket n) (w : Fin n) :
    (m.resolve w).1 = Except.ok () ∧
    ((m.resolve w).2).resolved = some w ∧
    ((m.resolve w).2).shares = m.shares ∧
    ((m.resolve w).2).liquidity = m.liquidity ∧
    ((m.resolve w).2).market_volume = m.market_volume :=
  ⟨rfl, rfl, rfl, rfl, rfl⟩

/-- C9: `payout_per_share` fails with `InsufficientShares` exactly when
`shares[outcome] = 0`, and otherwise returns `market_volume / shares[outcome]`;
the result is independent of the `resolved` field (it does not require
resolution), and the method takes `&self`, so it cannot mutate. -/
theorem payout_per_share_spec {n : ℕ} (m : LmsrMarket n) (i : Fin n) :
    (m.payout_per_share i = Except.error LmsrError.InsufficientShares ↔
      m.shares.getD i 0 = 0) ∧
    (m.shares.getD i 0 ≠ 0 →
      m.payout_per_share i = Except.ok (m.market_volume / (m.shares.getD i 0 : ℝ))) ∧
    (∀ r : Option (Fin n),
      (LmsrMarket.mk m.shares m.liquidity r m.market_volume).payout_per_share i =
        m.payout_per_share i) := by
  by_cases h : m.shares.getD i 0 = 0 <;>
    simp [LmsrMarket.payout_per_share, h]

/-- Witness for C9: on a one-outcome market holding 3 shares and volume 6,
the payout per share is 6 / 3. -/
theorem payout_per_share_spec_witness :
    (LmsrMarket.mk [3] (1 : ℝ) none (6 : ℝ) : LmsrMarket 1).payout_per_share
      ⟨0, Nat.zero_lt_one⟩ = Except.ok ((6 : ℝ) / ((3 : ℕ) : ℝ)) := by
  simpa using
    (payout_per_share_spec (LmsrMarket.mk [3] (1 : ℝ) none (6 : ℝ))
      ⟨0, Nat.zero_lt_one⟩).2.1 (by decide)

/-- Counterexample to C5 as stated: on a market already resolved to outcome 0,
calling `resolve` with outcome 1 changes the `resolved` field to a different
outcome (src/lmsr.rs lines 148 to 151 set it unconditionally). -/
theorem resolve_overwrites_counterexample :
    ((LmsrMarket.mk [0, 0] (10 : ℝ) (some 0) 0 : LmsrMarket 2).resolve 1).2.resolved ≠
      (LmsrMarket.mk [0, 0] (10 : ℝ) (some 0) 0 : LmsrMarket 2).resolved := by
  simp only [LmsrMarket.resolve, ne_eq, Option.some.injEq]
  decide

/-- C5 amended: once `resolved` is set it is never unset — `buy` and `sell`
leave it unchanged and `resolve` always leaves it set — but a repeated
`resolve` call may overwrite it with its (possibly different) argument. -/
theorem resolved_never_unset {n : ℕ} (m : LmsrMarket n) (o : Fin n)
    (h : m.resolved = some o) :
    (∀ i a, ((m.buy i a).2).resolved = some o) ∧
    (∀ i a, ((m.sell i a).2).resolved = some o) ∧
    (∀ w, ((m.resolve w).2).resolved = some w) :=
  ⟨fun i a => (m.buy_resolved_eq i a).trans h,
   fun i a => (m.sell_resolved_eq i a).trans h,
   fun _ => rfl⟩

/-- Witness for the amended C5: a buy on a resolved market leaves the
resolved outcome in place. -/
theorem resolved_never_unset_witness :
    (((LmsrMarket.mk [0, 0] (10 : ℝ) (some 0) 0 : LmsrMarket 2).buy 1 5).2).resolved =
      some 0 :=
  (resolved_never_unset (LmsrMarket.mk [0, 0] (10 : ℝ) (some 0) 0) 0 rfl).1 1 5

/-- Counterexample to C6 as stated: the DTO-to-market conversion performs no
validation — a record whose share list has length 1 (not `N = 2`) and whose
liquidity is 0 (not positive) is still turned into a market, with all four
fields copied verbatim. -/
theorem ofDTO_accepts_malformed_counterexample :
    (LmsrMarketDTO.mk [5] (0 : ℝ) none (0 : ℝ) : LmsrMarketDTO 2).shares.length ≠ 2 ∧
    ¬ (0 < (LmsrMarketDTO.mk [5] (0 : ℝ) none (0 : ℝ) : LmsrMarketDTO 2).liquidity) ∧
    LmsrMarket.ofDTO (LmsrMarketDTO.mk [5] (0 : ℝ) none (0 : ℝ) : LmsrMarketDTO 2) =
      LmsrMarket.mk [5] (0 : ℝ) none (0 : ℝ) :=
  ⟨by decide, by norm_num, rfl⟩

/-- C6 amended: converting a snapshot record into a live market is the plain
identity on the four fields, accepting every record without any validation of
the share-list length or the sign of the liquidity. -/
theorem ofDTO_is_field_identity {n : ℕ} (d : LmsrMarketDTO n) :
    (LmsrMarket.ofDTO d).shares = d.shares ∧
    (LmsrMarket.ofDTO d).liquidity = d.liquidity ∧
    (LmsrMarket.ofDTO d).resolved = d.resolved ∧
    (LmsrMarket.ofDTO d).market_volume = d.market_volume :=
  ⟨rfl, rfl, rfl, rfl⟩

/-- C2: on an unresolved market (satisfying the data-model invariants
`shares.length = n` and `market_volume ≥ 0`), buying then selling the same
amount of the same outcome both succeed, the sell proceeds equal the buy
cost, and the whole market state — shares, volume, and hence all prices —
is restored exactly. -/
theorem buy_sell_round_trip {n : ℕ} (m : LmsrMarket n) (i : Fin n) (a : ℕ)
    (hlen : m.shares.length = n) (hres : m.resolved = none)
    (hvol : 0 ≤ m.market_volume) :
    (m.buy i a).1 =
      Except.ok (m.cost (m.shares.set i (m.shares.getD i 0 + a)) - m.cost m.shares) ∧
    ((m.buy i a).2).sell i a =
      (Except.ok (m.cost (m.shares.set i (m.shares.getD i 0 + a)) - m.cost m.shares),
        m) := by
  obtain ⟨s, b, r, v⟩ := m
  obtain rfl : r = none := hres
  have hlen' : s.length = n := hlen
  have hi : (i : ℕ) < s.length := by rw [hlen']; exact i.isLt
  have hgd : (s.set i (s.getD i 0 + a)).getD i 0 = s.getD i 0 + a :=
    getD_set_self s i _ 0 hi
  rw [(LmsrMarket.mk s b none v).buy_eq_ok i a rfl]
  refine ⟨rfl, ?_⟩
  unfold LmsrMarket.sell
  dsimp only [LmsrMarket.cost, Option.isSome]
  rw [hgd, Nat.add_sub_cancel, List.set_set, set_getD_self s i 0 hi,
    if_neg Bool.false_ne_true,
    if_neg (show ¬ s.getD i 0 + a < a from by omega),
    add_sub_cancel_right,
    if_neg (not_lt.2 hvol)]

/-- Witness for C2: a concrete round trip (buy one share of outcome 0 on a
fresh binary market with liquidity 10, then sell it) returns the buy cost and
restores the market. -/
theorem buy_sell_round_trip_witness :
    (((LmsrMarket.new 2 (10 : ℝ)).buy 0 1).2).sell 0 1 =
      (Except.ok
        ((LmsrMarket.new 2 (10 : ℝ)).cost
            ((LmsrMarket.new 2 (10 : ℝ)).shares.set 0
              ((LmsrMarket.new 2 (10 : ℝ)).shares.getD 0 0 + 1)) -
          (LmsrMarket.new 2 (10 : ℝ)).cost (LmsrMarket.new 2 (10 : ℝ)).shares),
        LmsrMarket.new 2 (10 : ℝ)) :=
  (buy_sell_round_trip (LmsrMarket.new 2 (10 : ℝ)) 0 1 rfl rfl (le_refl 0)).2

/-- C1: in every reachable unresolved market state with positive liquidity
(and at least two outcomes, as the data model requires), `price` always
succeeds without mutating, the prices over all outcomes sum to 1, and each
individual price lies strictly between 0 and 1. -/
theorem price_normalization {n : ℕ} {b : ℝ} {m : LmsrMarket n}
    (hreach : Reachable n b m) (hb : 0 < b) (hn : 2 ≤ n)
    (hres : m.resolved = none) :
    (∀ i : Fin n, m.price i = Except.ok (m.priceVal i)) ∧
    (∑ i : Fin n, m.priceVal i) = 1 ∧
    (∀ i : Fin n, 0 < m.priceVal i ∧ m.priceVal i < 1) := by
  have hlen := reachable_shares_length hreach
  have hne : m.shares ≠ [] := by
    intro h
    rw [h, List.length_nil] at hlen
    omega
  have hD : 0 < expSum m.liquidity m.shares := expSum_pos _ _ hne
  have hsum : expSum m.liquidity m.shares
      = ∑ k : Fin n, Real.exp ((m.shares.getD k 0 : ℝ) / m.liquidity) :=
    expSum_eq_sum_fin _ _ _ hlen
  refine ⟨fun i => rfl, ?_, fun i => ⟨div_pos (Real.exp_pos _) hD, ?_⟩⟩
  · unfold LmsrMarket.priceVal
    rw [← Finset.sum_div, ← hsum, div_self hD.ne']
  · unfold LmsrMarket.priceVal
    rw [div_lt_one hD, hsum]
    haveI : Nontrivial (Fin n) := Fin.nontrivial_iff_two_le.mpr hn
    obtain ⟨j, hj⟩ := exists_ne i
    apply Finset.single_lt_sum hj (Finset.mem_univ i) (Finset.mem_univ j)
      (Real.exp_pos _) (fun k _ _ => (Real.exp_pos _).le)

/-- Witness for C1: on a fresh binary market with liquidity 1, the two
prices sum to 1 and the price of outcome 0 lies strictly between 0 and 1. -/
theorem price_normalization_witness :
    (∑ i : Fin 2, (LmsrMarket.new 2 (1 : ℝ)).priceVal i) = 1 ∧
    0 < (LmsrMarket.new 2 (1 : ℝ)).priceVal 0 ∧
    (LmsrMarket.new 2 (1 : ℝ)).priceVal 0 < 1 :=
  ⟨(@price_normalization 2 1 (LmsrMarket.new 2 (1 : ℝ))
      Reachable.new one_pos (le_refl 2) rfl).2.1,
   ((@price_normalization 2 1 (LmsrMarket.new 2 (1 : ℝ))
      Reachable.new one_pos (le_refl 2) rfl).2.2 0).1,
   ((@price_normalization 2 1 (LmsrMarket.new 2 (1 : ℝ))
      Reachable.new one_pos (le_refl 2) rfl).2.2 0).2⟩

/-- C8: on an unresolved market with positive liquidity and at least two
outcomes, a successful buy of a positive amount of outcome `i` strictly
increases the price of `i` and strictly decreases the price of every other
outcome. -/
theorem buy_moves_prices {n : ℕ} (m : LmsrMarket n) (i : Fin n) (a : ℕ)
    (hb : 0 < m.liquidity) (hlen : m.shares.length = n) (hn : 2 ≤ n)
    (hres : m.resolved = none) (ha : 0 < a) :
    m.priceVal i < ((m.buy i a).2).priceVal i ∧
    ∀ j : Fin n, j ≠ i → ((m.buy i a).2).priceVal j < m.priceVal j := by
  obtain ⟨s, b, r, v⟩ := m
  obtain rfl : r = none := hres
  have hb' : (0 : ℝ) < b := hb
  have hlen' : s.length = n := hlen
  have hi : (i : ℕ) < s.length := by rw [hlen']; exact i.isLt
  have hgd : (s.set i (s.getD i 0 + a)).getD i 0 = s.getD i 0 + a :=
    getD_set_self s i _ 0 hi
  have hgdj : ∀ j : Fin n, j ≠ i →
      (s.set i (s.getD i 0 + a)).getD j 0 = s.getD j 0 :=
    fun j hj => getD_set_ne s (fun hc => hj (Fin.ext hc.symm)) _ 0
  haveI : Nontrivial (Fin n) := Fin.nontrivial_iff_two_le.mpr hn
  obtain ⟨j0, hj0⟩ := exists_ne i
  have hR : 0 < ∑ k ∈ Finset.univ.erase i,
      Real.exp ((s.getD (k : Fin n) 0 : ℝ) / b) :=
    Finset.sum_pos (fun k _ => Real.exp_pos _)
      ⟨j0, Finset.mem_erase.mpr ⟨hj0, Finset.mem_univ _⟩⟩
  have hA : expSum b s
      = Real.exp ((s.getD (i : Fin n) 0 : ℝ) / b) +
        ∑ k ∈ Finset.univ.erase i, Real.exp ((s.getD (k : Fin n) 0 : ℝ) / b) := by
    rw [expSum_eq_sum_fin b s n hlen',
      ← Finset.add_sum_erase _ _ (Finset.mem_univ i)]
  have hB : expSum b (s.set i (s.getD i 0 + a))
      = Real.exp (((s.getD (i : Fin n) 0 + a : ℕ) : ℝ) / b) +
        ∑ k ∈ Finset.univ.erase i, Real.exp ((s.getD (k : Fin n) 0 : ℝ) / b) := by
    rw [expSum_eq_sum_fin b _ n (by rw [List.length_set]; exact hlen'),
      ← Finset.add_sum_erase _ _ (Finset.mem_univ i)]
    congr 1
    · rw [hgd]
    · exact Finset.sum_congr rfl fun k hk => by
        rw [hgdj k (Finset.mem_erase.mp hk).1]
  have hxy : Real.exp ((s.getD (i : Fin n) 0 : ℝ) / b)
      < Real.exp (((s.getD (i : Fin n) 0 + a : ℕ) : ℝ) / b) := by
    refine Real.exp_lt_exp.2 (div_lt_div_of_pos_right ?_ hb')
    exact_mod_cast Nat.lt_add_of_pos_right ha
  have key : ∀ x y R : ℝ, 0 < x → x < y → 0 < R → x / (x + R) < y / (y + R) := by
    intro x y R hx hxy hR
    rw [div_lt_div_iff (by linarith) (by linarith)]
    nlinarith
  have key2 : ∀ c x y R : ℝ, 0 < c → 0 < x → x < y → 0 < R →
      c / (y + R) < c / (x + R) := by
    intro c x y R hc hx hxy hR
    rw [div_lt_div_iff (by linarith) (by linarith)]
    nlinarith
  rw [(LmsrMarket.mk s b none v).buy_eq_ok i a rfl]
  dsimp only [LmsrMarket.priceVal]
  constructor
  · rw [hgd, hA, hB]
    exact key _ _ _ (Real.exp_pos _) hxy hR
  · intro j hj
    rw [hgdj j hj, hA, hB]
    exact key2 _ _ _ _ (Real.exp_pos _) (Real.exp_pos _) hxy hR

/-- Witness for C8: buying one share of outcome 0 on a fresh binary market
with liquidity 1 strictly raises the price of outcome 0 and strictly lowers
the price of outcome 1. -/
theorem buy_moves_prices_witness :
    (LmsrMarket.new 2 (1 : ℝ)).priceVal 0 <
      (((LmsrMarket.new 2 (1 : ℝ)).buy 0 1).2).priceVal 0 ∧
    (((LmsrMarket.new 2 (1 : ℝ)).buy 0 1).2).priceVal 1 <
      (LmsrMarket.new 2 (1 : ℝ)).priceVal 1 :=
  ⟨(buy_moves_prices (LmsrMarket.new 2 (1 : ℝ)) 0 1
      (by norm_num [LmsrMarket.new]) rfl (le_refl 2) rfl Nat.one_pos).1,
   (buy_moves_prices (LmsrMarket.new 2 (1 : ℝ)) 0 1
      (by norm_num [LmsrMarket.new]) rfl (le_refl 2) rfl Nat.one_pos).2 1
     (by decide)⟩

end Lmsr
